import Mathlib

/-!
Verification of the vkv import command and its secret printer.

The Go source consists of the `import` subcommand (`cmd/import.go`) and the
secret `printer` package.  Pure fragments of both are embedded shallowly below:
Go's `map[string]interface{}` values become the inductive `GoVal` (entry lists
model maps, list order models map iteration order), the printer becomes a
`Printer` structure whose options are the inductive `POpt`, and functions that
can panic in Go (`strings.Repeat` with a negative count, unchecked type
assertions) return `Option`.  Helpers from `pkg/utils` that are referenced but
whose source is not part of the repository snapshot (`FlattenMap`,
`UnflattenMap`, `DeepMergeMaps`, `GetRootElement`, `SortMapKeys`) are modelled
from the specification and are marked as such in their doc comments.
-/

namespace Vkv

/-! ## Path splitting and joining -/

/-- Character-level model of Go's `strings.Split(s, "/")`:
splitting `[]` yields `[[]]`, and each `'/'` starts a new segment. -/
def splitSlash : List Char → List (List Char)
  | [] => [[]]
  | c :: rest =>
    if c = '/' then [] :: splitSlash rest
    else
      match splitSlash rest with
      | s :: ss => (c :: s) :: ss
      | [] => [[c]]

/-- Modelled from the spec: `utils.Delimiter`, the slash path delimiter. -/
def Delimiter : String := "/"

/-- Model of Go's `strings.Split(s, utils.Delimiter)`. -/
def goSplit (s : String) : List String :=
  (splitSlash s.data).map String.mk

theorem splitSlash_ne_nil (l : List Char) : splitSlash l ≠ [] := by
  match l with
  | [] => simp [splitSlash]
  | c :: rest =>
    by_cases h : c = '/'
    · simp [splitSlash, h]
    · have := splitSlash_ne_nil rest
      simp only [splitSlash, if_neg h]
      cases hs : splitSlash rest with
      | nil => exact absurd hs this
      | cons s ss => simp

/-- Joining behaviour of `splitSlash`: interleaving the segments with slashes
(one slash before each segment) reproduces a slash followed by the input. -/
theorem splitSlash_flatMap (l : List Char) :
    (splitSlash l).flatMap (fun s => '/' :: s) = '/' :: l := by
  match l with
  | [] => simp [splitSlash]
  | c :: rest =>
    by_cases h : c = '/'
    · simp only [splitSlash, if_pos h, List.flatMap_cons]
      rw [splitSlash_flatMap rest]
      simp [h]
    · have ih := splitSlash_flatMap rest
      simp only [splitSlash, if_neg h]
      cases hs : splitSlash rest with
      | nil => exact absurd hs (splitSlash_ne_nil rest)
      | cons s ss =>
        rw [hs] at ih
        simp only [List.flatMap_cons] at ih ⊢
        cases ih
        simp

theorem length_splitSlash_gt_one_iff (l : List Char) :
    1 < (splitSlash l).length ↔ '/' ∈ l := by
  match l with
  | [] => simp [splitSlash]
  | c :: rest =>
    by_cases h : c = '/'
    · have := splitSlash_ne_nil rest
      simp only [splitSlash, if_pos h, List.length_cons, List.mem_cons]
      constructor
      · intro _; exact Or.inl h.symm
      · intro _
        cases hs : splitSlash rest with
        | nil => exact absurd hs this
        | cons s ss => simp
    · have ih := length_splitSlash_gt_one_iff rest
      simp only [splitSlash, if_neg h]
      cases hs : splitSlash rest with
      | nil => exact absurd hs (splitSlash_ne_nil rest)
      | cons s ss =>
        rw [hs] at ih
        simp only [List.length_cons, List.mem_cons] at ih ⊢
        constructor
        · intro hlen; exact Or.inr (ih.mp hlen)
        · intro hmem
          rcases hmem with hc | hm
          · exact absurd hc.symm h
          · exact ih.mpr hm

/-! ## Root classification (import.go, `NewImportCmd` run function) -/

/-- Destination of an inferred root path: either the KV engine path field or
the plain path field of the import options. -/
inductive RootKind where
  | enginePath
  | subPath
deriving DecidableEq

/-- Model of the classification in `NewImportCmd`: a root with more than one
delimiter-separated segment is used as the engine path, otherwise as the
plain sub-path. -/
def classifyRoot (rootPath : String) : RootKind :=
  if 1 < (goSplit rootPath).length then .enginePath else .subPath

/-- C5: after root resolution, the root is classified by segment count: more
than one delimiter-separated segment makes it the engine path, otherwise it is
the plain sub-path; in particular the single-segment root "secret" is
classified as a sub-path. -/
theorem classifyRoot_spec :
    (∀ s : String, classifyRoot s = .enginePath ↔ 1 < (goSplit s).length) ∧
    classifyRoot "secret" = .subPath := by
  constructor
  · intro s
    unfold classifyRoot
    split <;> simp_all
  · decide

/-! ## Go values: the model of `map[string]interface{}` trees -/

/-- Shallow model of a Go `interface{}` value as used by the printer and by
the import command: a string scalar, the untyped `nil`, or a nested
`map[string]interface{}` modelled as an entry list (list order models map
iteration order). -/
inductive GoVal where
  | vStr (s : String)
  | vNil
  | vMap (entries : List (String × GoVal))

/-- Model of Go's `fmt.Sprintf("%v", v)` for the values above. -/
def goSprint : GoVal → String
  | .vStr s => s
  | .vNil => "<nil>"
  | .vMap m => "map[" ++ goSprintEntries m ++ "]"
where
  /-- Renders map entries as `k:v` separated by spaces. -/
  goSprintEntries : List (String × GoVal) → String
  | [] => ""
  | [(k, v)] => k ++ ":" ++ goSprint v
  | (k, v) :: e :: rest => k ++ ":" ++ goSprint v ++ " " ++ goSprintEntries (e :: rest)

/-- Model of Go's `len` on strings (UTF-8 byte count). -/
def goLen (s : String) : Nat := s.utf8ByteSize

/-! ## The secret printer (printer package) -/

/-- The printer's mask character `*`. -/
def maskChar : String := "*"

/-- Printer constant `MaxValueLength`. -/
def MaxValueLength : Int := 12

/-- Model of Go's `strings.Repeat(s, n)`, which panics (here: `none`) when the
count is negative. -/
def goRepeat (s : String) (n : Int) : Option String :=
  if n < 0 then none else some ⟨(List.replicate n.toNat s.data).flatten⟩

/-- Output formats of the printer.  In the Go source the zero value of
`outputFormat` is none of `yaml`/`json`/`export`, so a fresh printer falls
into the `default` branch of `Out`; that zero value is `base` here. -/
inductive OutputFormat where
  | base
  | yaml
  | json
  | exportFmt
deriving DecidableEq

/-- The printer state (the `writer` field is modelled by returning the emitted
text from `Out` instead). -/
structure Printer where
  secrets : List (String × GoVal)
  format : OutputFormat
  onlyKeys : Bool
  onlyPaths : Bool
  showSecrets : Bool
  valueLength : Int

/-- Inner loop of `maskSecrets`: masks every value of one leaf map. -/
def maskLeaf (vl : Int) : List (String × GoVal) → Option (List (String × GoVal))
  | [] => some []
  | (k, v) :: rest => do
    let secret := goSprint v
    let masked ←
      if (goLen secret : Int) > vl then goRepeat maskChar vl
      else goRepeat maskChar (goLen secret : Int)
    let rest' ← maskLeaf vl rest
    some ((k, GoVal.vStr masked) :: rest')

/-- Model of `Printer.maskSecrets`: every top-level value that is a map gets
each of its values replaced by a run of mask characters; other top-level
values are skipped.  `none` models the `strings.Repeat` panic. -/
def maskSecrets (vl : Int) : List (String × GoVal) → Option (List (String × GoVal))
  | [] => some []
  | (k, v) :: rest =>
    match v with
    | .vMap m => do
      let m' ← maskLeaf vl m
      let rest' ← maskSecrets vl rest
      some ((k, GoVal.vMap m') :: rest')
    | _ => do
      let rest' ← maskSecrets vl rest
      some ((k, v) :: rest')

/-- Model of `Printer.printOnlykeys`: blanks every value of each top-level
map value. -/
def printOnlykeys (secrets : List (String × GoVal)) : List (String × GoVal) :=
  secrets.map fun e =>
    match e.2 with
    | .vMap m => (e.1, GoVal.vMap (m.map fun e' => (e'.1, GoVal.vStr "")))
    | _ => e

/-- Model of `Printer.printOnlyPaths`: sets every top-level value to `nil`. -/
def printOnlyPaths (secrets : List (String × GoVal)) : List (String × GoVal) :=
  secrets.map fun e => (e.1, GoVal.vNil)

/-- The printer's functional options, as syntax (applied by `applyOpt`). -/
inductive POpt where
  | customValueLength (n : Int)
  | onlyKeys (b : Bool)
  | onlyPaths (b : Bool)
  | toYAML (b : Bool)
  | toJSON (b : Bool)
  | toExportFormat (b : Bool)
  | showSecrets (b : Bool)
deriving DecidableEq

/-- Application of one option to the printer under construction, mirroring the
option closures in the Go source (note that `ToExportFormat` ignores its
boolean argument and always forces `showSecrets`). -/
def applyOpt (p : Printer) : POpt → Printer
  | .customValueLength n => { p with valueLength := n }
  | .onlyKeys b =>
    if b then { p with onlyKeys := true, secrets := printOnlykeys p.secrets } else p
  | .onlyPaths b =>
    if b then { p with onlyPaths := true, secrets := printOnlyPaths p.secrets } else p
  | .toYAML b => if b then { p with format := .yaml } else p
  | .toJSON b => if b then { p with format := .json } else p
  | .toExportFormat _ => { p with format := .exportFmt, showSecrets := true }
  | .showSecrets b => { p with showSecrets := b }

/-- Model of `NewPrinter`: builds the default printer, applies the options in
order, and masks the secrets unless `showSecrets` ended up set.  `none` models
a panic inside `maskSecrets`. -/
def NewPrinter (m : List (String × GoVal)) (opts : List POpt) : Option Printer :=
  let p := opts.foldl applyOpt ⟨m, .base, false, false, false, MaxValueLength⟩
  if p.showSecrets then some p
  else (maskSecrets p.valueLength p.secrets).map fun s => { p with secrets := s }

/-! ## Masking characterization -/

/-- The replacement value `maskSecrets` produces for one leaf value. -/
def maskedValue (vl : Int) (v : GoVal) : GoVal :=
  GoVal.vStr ⟨List.replicate (min (goLen (goSprint v)) vl.toNat) '*'⟩

theorem flatten_replicate_singleton (n : Nat) (c : Char) :
    (List.replicate n [c]).flatten = List.replicate n c := by
  induction n with
  | zero => simp
  | succ k ih => simp [List.replicate_succ, ih]

theorem goRepeat_nonneg (n : Int) (h : 0 ≤ n) :
    goRepeat maskChar n = some ⟨List.replicate n.toNat '*'⟩ := by
  simp only [goRepeat, if_neg (not_lt.mpr h)]
  rw [show maskChar.data = ['*'] from rfl, flatten_replicate_singleton]

theorem maskLeaf_spec (vl : Int) (h : 0 ≤ vl) (inner : List (String × GoVal)) :
    maskLeaf vl inner = some (inner.map fun e => (e.1, maskedValue vl e.2)) := by
  induction inner with
  | nil => simp [maskLeaf]
  | cons e rest ih =>
    obtain ⟨k, v⟩ := e
    simp only [maskLeaf, ih, Option.bind_eq_bind]
    by_cases hlen : (goLen (goSprint v) : Int) > vl
    · rw [if_pos hlen, goRepeat_nonneg vl h]
      simp only [Option.bind_some, Option.some_bind, List.map_cons, maskedValue]
      have : min (goLen (goSprint v)) vl.toNat = vl.toNat := by omega
      rw [this]
    · rw [if_neg hlen, goRepeat_nonneg _ (by positivity)]
      simp only [Option.bind_some, Option.some_bind, List.map_cons, maskedValue]
      have : min (goLen (goSprint v)) vl.toNat = goLen (goSprint v) := by omega
      simp [this]

theorem maskSecrets_spec (vl : Int) (h : 0 ≤ vl) (secrets : List (String × GoVal)) :
    maskSecrets vl secrets = some (secrets.map fun e =>
      match e.2 with
      | .vMap m => (e.1, GoVal.vMap (m.map fun e' => (e'.1, maskedValue vl e'.2)))
      | _ => e) := by
  induction secrets with
  | nil => simp [maskSecrets]
  | cons e rest ih =>
    obtain ⟨k, v⟩ := e
    cases v with
    | vMap m => simp [maskSecrets, maskLeaf_spec vl h, ih]
    | vStr s => simp [maskSecrets, ih]
    | vNil => simp [maskSecrets, ih]

theorem lookup_map_snd {β γ : Type} (f : β → γ) (a : String) (l : List (String × β)) :
    List.lookup a (l.map fun e => (e.1, f e.2)) = (List.lookup a l).map f := by
  induction l with
  | nil => simp
  | cons e rest ih =>
    by_cases hk : a == e.1
    · simp [List.lookup, hk]
    · simp [List.lookup, hk, ih]

/-- C2: with masking enabled and a non-negative mask length, every leaf value
`v` is replaced by a run of mask characters of length
`min (len (stringify v)) maskLength`. -/
theorem maskSecrets_length (vl : Int) (hvl : 0 ≤ vl)
    (secrets inner : List (String × GoVal)) (k k' : String) (v : GoVal)
    (htop : secrets.lookup k = some (GoVal.vMap inner))
    (hin : inner.lookup k' = some v) :
    ∃ res inner', maskSecrets vl secrets = some res ∧
      res.lookup k = some (GoVal.vMap inner') ∧
      inner'.lookup k' =
        some (GoVal.vStr ⟨List.replicate (min (goLen (goSprint v)) vl.toNat) '*'⟩) := by
  refine ⟨_, inner.map fun e => (e.1, maskedValue vl e.2), maskSecrets_spec vl hvl secrets,
    ?_, ?_⟩
  · set f : GoVal → GoVal := fun b =>
      match b with
      | .vMap m => GoVal.vMap (m.map fun e' => (e'.1, maskedValue vl e'.2))
      | .vStr s => GoVal.vStr s
      | .vNil => GoVal.vNil with hf
    have hfun : (fun e : String × GoVal =>
        match e.2 with
        | .vMap m => (e.1, GoVal.vMap (m.map fun e' => (e'.1, maskedValue vl e'.2)))
        | _ => e) =
        fun e : String × GoVal => (e.1, f e.2) := by
      funext e
      obtain ⟨a, b⟩ := e
      cases b <;> rfl
    rw [hfun, lookup_map_snd f, htop]
    rfl
  · rw [lookup_map_snd, hin]
    rfl

/-- Witness for `maskSecrets_length` at a concrete secret map. -/
theorem maskSecrets_length_witness :
    ∃ res inner',
      maskSecrets 4 [("db", GoVal.vMap [("pass", GoVal.vStr "s3cretpassword")])] = some res ∧
      res.lookup "db" = some (GoVal.vMap inner') ∧
      inner'.lookup "pass" =
        some (GoVal.vStr ⟨List.replicate (min (goLen (goSprint (GoVal.vStr "s3cretpassword"))) (Int.toNat 4)) '*'⟩) :=
  maskSecrets_length 4 (by decide) _ [("pass", GoVal.vStr "s3cretpassword")] "db" "pass"
    (GoVal.vStr "s3cretpassword") rfl rfl

/-- C3 (divergence witness): with `maskLength = -1` and masking enabled, the
printer does not leave values unmasked — `maskSecrets` reaches
`strings.Repeat` with a negative count and panics (`none`). -/
theorem maskSecrets_neg_one_panics :
    maskSecrets (-1) [("path", GoVal.vMap [("key", GoVal.vStr "value")])] = none := rfl

/-! ## Output rendering (`Printer.Out`) -/

/-- Modelled from the spec: `utils.SortMapKeys` returns the map's keys sorted
lexicographically. -/
def SortMapKeys (m : List (String × GoVal)) : List String :=
  (m.map Prod.fst).insertionSort (· ≤ ·)

/-- Go map indexing: the value stored at a key, or the `nil` interface value
when the key is absent. -/
def lookupD (k : String) (m : List (String × GoVal)) : GoVal :=
  (m.lookup k).getD GoVal.vNil

/-- Model of `Printer.printSecrets` (the text it writes for one top-level
value). -/
def printSecretsStr (onlyKeys onlyPaths : Bool) (v : GoVal) : String :=
  match v with
  | .vMap m =>
    String.join ((SortMapKeys m).map fun k =>
      if onlyKeys then "\t" ++ k ++ "\n"
      else if !onlyKeys && !onlyPaths then "\t" ++ k ++ "=" ++ goSprint (lookupD k m) ++ "\n"
      else "")
  | _ => ""

/-- Model of the `default` branch of `Printer.Out`. -/
def outBase (p : Printer) : String :=
  String.join ((SortMapKeys p.secrets).map fun k =>
    k ++ "\n" ++ printSecretsStr p.onlyKeys p.onlyPaths (lookupD k p.secrets))

/-- The unchecked type assertion `.(map[string]interface{})` of the export
branch: `none` models the panic on a non-map value. -/
def asMapEntries : GoVal → Option (List (String × GoVal))
  | .vMap m => some m
  | _ => none

/-- Model of the `export` branch of `Printer.Out`: top-level keys are sorted,
but each leaf map is iterated in map order (the entry-list order here). -/
def outExport (m : List (String × GoVal)) : Option String :=
  (SortMapKeys m).foldr
    (fun s acc => do
      let inner ← asMapEntries (lookupD s m)
      let rest ← acc
      some (String.join (inner.map fun e => "export " ++ e.1 ++ "=" ++ goSprint e.2 ++ "\n")
        ++ rest))
    (some "")

/-- Entry lists sorted by key. -/
def sortPairs (l : List (String × GoVal)) : List (String × GoVal) :=
  l.insertionSort fun a b => a.1 ≤ b.1

/-- Canonical form of a value: every map level sorted by key.  Used to model
serializers that emit keys in sorted order. -/
def canonVal : GoVal → GoVal
  | .vStr s => .vStr s
  | .vNil => .vNil
  | .vMap m => .vMap (sortPairs (canonEntries m))
where
  /-- Canonicalizes each value of an entry list. -/
  canonEntries : List (String × GoVal) → List (String × GoVal)
  | [] => []
  | (k, v) :: rest => (k, canonVal v) :: canonEntries rest

/-- Plain structural JSON rendering (no reordering). -/
def jsonRaw : GoVal → String
  | .vStr s => "\"" ++ s ++ "\""
  | .vNil => "null"
  | .vMap m => "\x7b" ++ jsonRawEntries m ++ "\x7d"
where
  /-- Renders entries as comma-separated `"k":v` pairs. -/
  jsonRawEntries : List (String × GoVal) → String
  | [] => ""
  | [(k, v)] => "\"" ++ k ++ "\":" ++ jsonRaw v
  | (k, v) :: e :: rest => "\"" ++ k ++ "\":" ++ jsonRaw v ++ "," ++ jsonRawEntries (e :: rest)

/-- Plain structural YAML (flow style) rendering (no reordering). -/
def yamlRaw : GoVal → String
  | .vStr s => s
  | .vNil => "null"
  | .vMap m => "\x7b" ++ yamlRawEntries m ++ "\x7d"
where
  /-- Renders entries as comma-separated `k: v` pairs. -/
  yamlRawEntries : List (String × GoVal) → String
  | [] => ""
  | [(k, v)] => k ++ ": " ++ yamlRaw v
  | (k, v) :: e :: rest => k ++ ": " ++ yamlRaw v ++ ", " ++ yamlRawEntries (e :: rest)

/-- Modelled from the spec: `utils.ToJSON`, a structured serialization with
keys sorted lexicographically at every level. -/
def ToJSONModel (v : GoVal) : String := jsonRaw (canonVal v)

/-- Modelled from the spec: `utils.ToYAML`, a structured serialization with
keys sorted lexicographically at every level. -/
def ToYAMLModel (v : GoVal) : String := yamlRaw (canonVal v)

/-- Model of `Printer.Out`: the text written to the printer's writer, or
`none` when the Go code panics. -/
def goOut (p : Printer) : Option String :=
  match p.format with
  | .yaml => some (ToYAMLModel (GoVal.vMap p.secrets))
  | .json => some (ToJSONModel (GoVal.vMap p.secrets))
  | .exportFmt => outExport p.secrets
  | .base => some (outBase p)

/-- C10: in shell-export format `Out` performs an unchecked type assertion on
every top-level value; a printer whose only-paths option has set the top-level
values to `nil` makes `Out` panic (`none`) instead of returning an error. -/
theorem out_export_onlyPaths_panics :
    (NewPrinter [("a", GoVal.vMap [("k", GoVal.vStr "v")])]
        [POpt.toExportFormat true, POpt.onlyPaths true]).map goOut = some none := rfl

/-! ## C9: the export-format option and masking -/

theorem foldl_applyOpt_secrets (opts : List POpt) :
    ∀ p : Printer, (∀ o ∈ opts, o ≠ POpt.onlyKeys true ∧ o ≠ POpt.onlyPaths true) →
      (opts.foldl applyOpt p).secrets = p.secrets := by
  induction opts with
  | nil => intro p _; rfl
  | cons o rest ih =>
    intro p h
    have hrest : ∀ o' ∈ rest, o' ≠ POpt.onlyKeys true ∧ o' ≠ POpt.onlyPaths true :=
      fun o' ho' => h o' (List.mem_cons_of_mem _ ho')
    have ho := h o (List.mem_cons_self _ _)
    rw [List.foldl_cons, ih _ hrest]
    cases o with
    | customValueLength n => rfl
    | onlyKeys b =>
      cases b with
      | true => exact absurd rfl ho.1
      | false => rfl
    | onlyPaths b =>
      cases b with
      | true => exact absurd rfl ho.2
      | false => rfl
    | toYAML b => cases b <;> rfl
    | toJSON b => cases b <;> rfl
    | toExportFormat b => rfl
    | showSecrets b => rfl

theorem foldl_applyOpt_export (opts : List POpt) :
    ∀ p : Printer, p.showSecrets = true → p.format = .exportFmt →
      (∀ o ∈ opts, o ≠ POpt.showSecrets false ∧ o ≠ POpt.toYAML true ∧ o ≠ POpt.toJSON true) →
      (opts.foldl applyOpt p).showSecrets = true ∧
        (opts.foldl applyOpt p).format = .exportFmt := by
  induction opts with
  | nil => intro p hs hf _; exact ⟨hs, hf⟩
  | cons o rest ih =>
    intro p hs hf h
    have hrest : ∀ o' ∈ rest,
        o' ≠ POpt.showSecrets false ∧ o' ≠ POpt.toYAML true ∧ o' ≠ POpt.toJSON true :=
      fun o' ho' => h o' (List.mem_cons_of_mem _ ho')
    have ho := h o (List.mem_cons_self _ _)
    rw [List.foldl_cons]
    refine ih _ ?_ ?_ hrest
    · cases o with
      | customValueLength n => exact hs
      | onlyKeys b => cases b <;> simpa [applyOpt] using hs
      | onlyPaths b => cases b <;> simpa [applyOpt] using hs
      | toYAML b =>
        cases b with
        | true => exact absurd rfl ho.2.1
        | false => exact hs
      | toJSON b =>
        cases b with
        | true => exact absurd rfl ho.2.2
        | false => exact hs
      | toExportFormat b => rfl
      | showSecrets b =>
        cases b with
        | true => rfl
        | false => exact absurd rfl ho.1
    · cases o with
      | customValueLength n => exact hf
      | onlyKeys b => cases b <;> simpa [applyOpt] using hf
      | onlyPaths b => cases b <;> simpa [applyOpt] using hf
      | toYAML b =>
        cases b with
        | true => exact absurd rfl ho.2.1
        | false => exact hf
      | toJSON b =>
        cases b with
        | true => exact absurd rfl ho.2.2
        | false => exact hf
      | toExportFormat b => rfl
      | showSecrets b =>
        cases b with
        | true => exact hf
        | false => exact absurd rfl ho.1

/-- C9 (counterexample): a printer constructed with the export-format option
followed by `ShowSecrets(false)` does mask its values, so the emitted value is
the mask run, not the original value. -/
theorem toExportFormat_overridden_by_showSecrets :
    (NewPrinter [("a", GoVal.vMap [("k", GoVal.vStr "0123456789abcdef")])]
        [POpt.toExportFormat true, POpt.showSecrets false]).map goOut =
      some (some "export k=************\n") ∧
    ("export k=************\n" : String) ≠ "export k=0123456789abcdef\n" := by
  constructor
  · rfl
  · decide

/-- C9 (amended): `ToExportFormat` forces `showSecrets` regardless of its
boolean argument, so when no later option sets show-secrets back to `false`
(and no option switches the format away or rewrites the values via only-keys
or only-paths), masking is skipped and the printer emits the original
stringified values whatever the configured value length. -/
theorem toExportFormat_skips_masking (m : List (String × GoVal))
    (l1 l2 : List POpt) (b : Bool)
    (h2 : ∀ o ∈ l2, o ≠ POpt.showSecrets false ∧ o ≠ POpt.toYAML true ∧ o ≠ POpt.toJSON true)
    (hko : ∀ o ∈ l1 ++ l2, o ≠ POpt.onlyKeys true ∧ o ≠ POpt.onlyPaths true) :
    ∃ p, NewPrinter m (l1 ++ POpt.toExportFormat b :: l2) = some p ∧
      p.secrets = m ∧ p.showSecrets = true ∧ p.format = .exportFmt ∧
      goOut p = outExport m := by
  set p0 : Printer := ⟨m, .base, false, false, false, MaxValueLength⟩ with hp0
  set p1 : Printer := l1.foldl applyOpt p0 with hp1
  have h1 : ∀ o ∈ l1, o ≠ POpt.onlyKeys true ∧ o ≠ POpt.onlyPaths true :=
    fun o ho => hko o (List.mem_append_left _ ho)
  have h2' : ∀ o ∈ l2, o ≠ POpt.onlyKeys true ∧ o ≠ POpt.onlyPaths true :=
    fun o ho => hko o (List.mem_append_right _ ho)
  set p2 : Printer := applyOpt p1 (POpt.toExportFormat b) with hp2
  set p3 : Printer := l2.foldl applyOpt p2 with hp3
  have hfold : (l1 ++ POpt.toExportFormat b :: l2).foldl applyOpt p0 = p3 := by
    rw [List.foldl_append, List.foldl_cons]
  have hsec : p3.secrets = m := by
    rw [hp3, foldl_applyOpt_secrets l2 _ h2']
    have : p2.secrets = p1.secrets := rfl
    rw [this, hp1, foldl_applyOpt_secrets l1 _ h1]
  have hexp := foldl_applyOpt_export l2 p2 rfl rfl h2
  refine ⟨p3, ?_, hsec, hexp.1, hexp.2, ?_⟩
  · unfold NewPrinter
    rw [hfold, if_pos hexp.1]
  · unfold goOut
    rw [hexp.2, hsec]

/-- Witness for `toExportFormat_skips_masking` at a concrete option list. -/
theorem toExportFormat_skips_masking_witness :
    ∃ p, NewPrinter [("a", GoVal.vMap [("k", GoVal.vStr "longsecretvalue")])]
        ([POpt.showSecrets false] ++ POpt.toExportFormat true :: [POpt.customValueLength 0]) =
        some p ∧
      p.secrets = [("a", GoVal.vMap [("k", GoVal.vStr "longsecretvalue")])] ∧
      p.showSecrets = true ∧ p.format = .exportFmt ∧
      goOut p = outExport [("a", GoVal.vMap [("k", GoVal.vStr "longsecretvalue")])] :=
  toExportFormat_skips_masking _ _ _ true (by decide) (by decide)

/-! ## Deep merging (spec-modelled `utils.DeepMergeMaps`) -/

theorem sizeOf_snd_lt_of_mem {m : List (String × GoVal)} {p : String × GoVal}
    (h : p ∈ m) : sizeOf p.2 < sizeOf m := by
  induction m with
  | nil => cases h
  | cons q rest ih =>
    rcases List.mem_cons.mp h with rfl | hmem
    · obtain ⟨a, b⟩ := p
      simp only [List.cons.sizeOf_spec, Prod.mk.sizeOf_spec]
      omega
    · have := ih hmem
      simp only [List.cons.sizeOf_spec]
      omega

theorem mem_of_lookup_eq_some {e : List (String × GoVal)} {k : String} {v : GoVal}
    (h : e.lookup k = some v) : (k, v) ∈ e := by
  induction e with
  | nil => simp at h
  | cons q rest ih =>
    obtain ⟨k0, v0⟩ := q
    by_cases hb : k == k0
    · simp only [List.lookup, hb, if_pos] at h
      cases h
      have : k = k0 := eq_of_beq hb
      subst this
      exact List.mem_cons_self _ _
    · simp only [List.lookup, hb] at h
      exact List.mem_cons_of_mem _ (ih h)

theorem sizeOf_lookup_lt {e : List (String × GoVal)} {k : String} {v : GoVal}
    (h : e.lookup k = some v) : sizeOf v < sizeOf e :=
  sizeOf_snd_lt_of_mem (mem_of_lookup_eq_some h)

mutual
/-- Modelled from the spec: the recursive merge of two values — when both are
maps the maps merge entry-wise, otherwise the new (first) side wins. -/
def deepMergeVal : GoVal → GoVal → GoVal
  | .vMap n, .vMap e => .vMap (DeepMergeMaps n e)
  | n, _ => n
termination_by a b => sizeOf a + sizeOf b
decreasing_by
  simp only [GoVal.vMap.sizeOf_spec]
  omega

/-- Modelled from the spec: `utils.DeepMergeMaps new existing` — the union of
both maps where the new side's entries are merged with the existing value at
the same key and existing entries absent from new are kept. -/
def DeepMergeMaps (n e : List (String × GoVal)) : List (String × GoVal) :=
  mergeNew n e ++ e.filter fun p => !((n.map Prod.fst).contains p.1)
termination_by sizeOf n + sizeOf e + 1
decreasing_by
  omega

/-- The entries of the new side, merged with the existing value at the same
key when there is one. -/
def mergeNew : List (String × GoVal) → List (String × GoVal) → List (String × GoVal)
  | [], _ => []
  | (k, v) :: rest, e =>
    (k, match h : e.lookup k with
        | some v' => deepMergeVal v v'
        | none => v) :: mergeNew rest e
termination_by n e => sizeOf n + sizeOf e
decreasing_by
  · have := sizeOf_lookup_lt h
    simp only [List.cons.sizeOf_spec, Prod.mk.sizeOf_spec]
    omega
  · simp only [List.cons.sizeOf_spec]
    omega
end

theorem lookup_mergeNew (k : String) (e : List (String × GoVal)) :
    ∀ n : List (String × GoVal),
      (mergeNew n e).lookup k =
        match n.lookup k with
        | some v =>
          some (match e.lookup k with
                | some v' => deepMergeVal v v'
                | none => v)
        | none => none := by
  intro n
  induction n with
  | nil => simp [mergeNew, List.lookup]
  | cons q rest ih =>
    obtain ⟨k0, v0⟩ := q
    by_cases hb : k == k0
    · have : k = k0 := eq_of_beq hb
      subst this
      simp only [mergeNew, List.lookup, hb, if_pos]
      split
      · next v' hv' => rw [hv']
      · next hv' => rw [hv']
    · simp [mergeNew, List.lookup, hb, ih]

theorem lookup_append_cases (k : String) (l1 l2 : List (String × GoVal)) :
    (l1 ++ l2).lookup k =
      match l1.lookup k with
      | some v => some v
      | none => l2.lookup k := by
  induction l1 with
  | nil => simp [List.lookup]
  | cons q rest ih =>
    obtain ⟨k0, v0⟩ := q
    by_cases hb : k == k0
    · simp [List.lookup, hb]
    · simp [List.lookup, hb, ih]

theorem lookup_filter_keep (k : String) (e : List (String × GoVal))
    (p : String × GoVal → Bool) (hp : ∀ v, p (k, v) = true) :
    (e.filter p).lookup k = e.lookup k := by
  induction e with
  | nil => simp
  | cons q rest ih =>
    obtain ⟨k0, v0⟩ := q
    by_cases hb : k == k0
    · have : k = k0 := eq_of_beq hb
      subst this
      rw [List.filter_cons, hp v0]
      simp [List.lookup, hb]
    · rw [List.filter_cons]
      by_cases hpq : p (k0, v0)
      · simp [hpq, List.lookup, hb, ih]
      · simp [hpq, ih, List.lookup, hb]

theorem lookup_eq_none_iff (k : String) (n : List (String × GoVal)) :
    n.lookup k = none ↔ ((n.map Prod.fst).contains k) = false := by
  induction n with
  | nil => simp [List.lookup]
  | cons q rest ih =>
    obtain ⟨k0, v0⟩ := q
    by_cases hk : k = k0
    · subst hk
      simp [List.lookup, List.contains_cons]
    · have hb : (k == k0) = false := beq_eq_false_iff_ne.mpr hk
      simp [List.lookup, hb, List.contains_cons, hk, ih]

/-- C6: `DeepMergeMaps` merges leaf-key-wise with the new side winning — the
value at any key is the new side's (recursively merged with existing's value
at that key), and existing keys absent from new are preserved; in particular
`DeepMergeMaps {a: {k:"1"}} {a: {k:"0", j:"2"}} = {a: {k:"1", j:"2"}}`. -/
theorem DeepMergeMaps_spec :
    (∀ (n e : List (String × GoVal)) (k : String),
      (DeepMergeMaps n e).lookup k =
        match n.lookup k, e.lookup k with
        | some a, some b => some (deepMergeVal a b)
        | some a, none => some a
        | none, some b => some b
        | none, none => none) ∧
    DeepMergeMaps [("a", GoVal.vMap [("k", GoVal.vStr "1")])]
        [("a", GoVal.vMap [("k", GoVal.vStr "0"), ("j", GoVal.vStr "2")])] =
      [("a", GoVal.vMap [("k", GoVal.vStr "1"), ("j", GoVal.vStr "2")])] := by
  constructor
  · intro n e k
    unfold DeepMergeMaps
    rw [lookup_append_cases, lookup_mergeNew]
    cases hn : n.lookup k with
    | some a => cases he : e.lookup k <;> simp
    | none =>
      have hc := (lookup_eq_none_iff k n).mp hn
      rw [lookup_filter_keep k e _
        (fun v => by show (!((n.map Prod.fst).contains k)) = true; rw [hc]; rfl)]
      cases he : e.lookup k <;> simp
  · simp [DeepMergeMaps, mergeNew, deepMergeVal, List.lookup, List.filter]

/-! ## C8: merge idempotence -/

/-- Well-formedness of a Go value: every map level has distinct keys. -/
inductive WFVal : GoVal → Prop where
  | str (s : String) : WFVal (.vStr s)
  | nil : WFVal .vNil
  | map {m : List (String × GoVal)} :
      (m.map Prod.fst).Nodup → (∀ p ∈ m, WFVal p.2) → WFVal (.vMap m)

theorem lookup_self_of_nodup {m : List (String × GoVal)}
    (hnd : (m.map Prod.fst).Nodup) :
    ∀ p ∈ m, m.lookup p.1 = some p.2 := by
  induction m with
  | nil => intro p hp; cases hp
  | cons q rest ih =>
    intro p hp
    obtain ⟨k0, v0⟩ := q
    rcases List.mem_cons.mp hp with rfl | hmem
    · simp [List.lookup]
    · have hk : ¬ p.1 == k0 := by
        intro hb
        have : p.1 = k0 := eq_of_beq hb
        have hin : k0 ∈ rest.map Prod.fst := by
          rw [← this]
          exact List.mem_map_of_mem Prod.fst hmem
        simp only [List.map_cons, List.nodup_cons] at hnd
        exact hnd.1 hin
      have hnd' : (rest.map Prod.fst).Nodup := by
        simp only [List.map_cons, List.nodup_cons] at hnd
        exact hnd.2
      simp only [List.lookup, hk]
      exact ih hnd' p hmem

theorem mergeNew_congr_self (m : List (String × GoVal)) :
    ∀ sub : List (String × GoVal),
      (∀ p ∈ sub, m.lookup p.1 = some p.2 ∧ deepMergeVal p.2 p.2 = p.2) →
      mergeNew sub m = sub := by
  intro sub
  induction sub with
  | nil => intro _; simp [mergeNew]
  | cons q rest ih =>
    intro h
    obtain ⟨k, v⟩ := q
    have hq := h (k, v) (List.mem_cons_self _ _)
    simp only [mergeNew]
    rw [ih fun p hp => h p (List.mem_cons_of_mem _ hp)]
    have hl : m.lookup k = some v := hq.1
    refine congrArg (fun w => (k, w) :: rest) ?_
    split
    · next v' hv' =>
      rw [hl] at hv'
      cases hv'
      exact hq.2
    · next hv' =>
      exact Option.noConfusion (hl.symm.trans hv')

theorem deepMergeVal_self (t : GoVal) (h : WFVal t) : deepMergeVal t t = t := by
  cases h with
  | str s => simp [deepMergeVal.eq_def]
  | nil => simp [deepMergeVal.eq_def]
  | @map m hnd hvals =>
    have hms : mergeNew m m = m := by
      refine mergeNew_congr_self m m fun p hp => ⟨lookup_self_of_nodup hnd p hp, ?_⟩
      have hsz : sizeOf p.2 < sizeOf (GoVal.vMap m) := by
        have := sizeOf_snd_lt_of_mem hp
        simp only [GoVal.vMap.sizeOf_spec]
        omega
      exact deepMergeVal_self p.2 (hvals p hp)
    have hflt : (m.filter fun p => !((m.map Prod.fst).contains p.1)) = [] := by
      rw [List.filter_eq_nil_iff]
      intro p hp
      have hcon : (m.map Prod.fst).contains p.1 = true := by
        have : p.1 ∈ m.map Prod.fst := List.mem_map_of_mem Prod.fst hp
        exact List.elem_eq_true_of_mem this
      show ¬ (!((m.map Prod.fst).contains p.1)) = true
      rw [hcon]
      simp
    simp only [deepMergeVal, DeepMergeMaps, hms, hflt, List.append_nil]
termination_by sizeOf t
decreasing_by
  exact hsz

/-- C8: merging a well-formed tree with itself is a no-op:
`DeepMergeMaps t t = t`. -/
theorem DeepMergeMaps_self (m : List (String × GoVal)) (h : WFVal (.vMap m)) :
    DeepMergeMaps m m = m := by
  have hv := deepMergeVal_self (.vMap m) h
  rw [show deepMergeVal (.vMap m) (.vMap m) = .vMap (DeepMergeMaps m m) by
    simp [deepMergeVal.eq_def]] at hv
  exact GoVal.vMap.inj hv

/-- Witness for `DeepMergeMaps_self` at a concrete tree. -/
theorem DeepMergeMaps_self_witness :
    DeepMergeMaps [("a", GoVal.vMap [("k", GoVal.vStr "1")])]
        [("a", GoVal.vMap [("k", GoVal.vStr "1")])] =
      [("a", GoVal.vMap [("k", GoVal.vStr "1")])] := by
  refine DeepMergeMaps_self _ (WFVal.map (by simp) ?_)
  intro p hp
  simp only [List.mem_singleton] at hp
  subst hp
  refine WFVal.map (by simp) ?_
  intro p' hp'
  simp only [List.mem_singleton] at hp'
  subst hp'
  exact WFVal.str _

/-! ## The import command around the dry run (import.go) -/

/-- Joining a prefix and a path segment with the delimiter; an empty prefix
contributes nothing. -/
def joinPath (p s : String) : String := if p = "" then s else p ++ "/" ++ s

/-- Model of Go's `strings.TrimPrefix`. -/
def goTrimPref (s pre : String) : String :=
  if pre.data.isPrefixOf s.data then ⟨s.data.drop pre.data.length⟩ else s

/-- Simplified model of Go's `path.Join` on two relative fragments (the
`path.Clean` normalization step is elided). -/
def pathJoin (a b : String) : String :=
  if a = "" then b else if b = "" then a else a ++ "/" ++ b

/-- Modelled from the spec: `utils.GetRootElement` returns the single
top-level key of the tree and fails when there are zero or several. -/
def GetRootElement : List (String × GoVal) → Except String String
  | [e] => .ok e.1
  | _ => .error "unable to determine a root element"

/-- Whether a map value is a leaf map (no nested map among its values). -/
def isLeafMapG (m : List (String × GoVal)) : Bool :=
  m.all fun e =>
    match e.2 with
    | .vMap _ => false
    | _ => true

/-- Modelled from the spec: `utils.FlattenMap` — descends the nested tree and
emits every leaf map keyed by its joined path. -/
def FlattenMapG : List (String × GoVal) → String → List (String × GoVal)
  | [], _ => []
  | (k, v) :: rest, pre =>
    (match v with
     | .vMap m =>
       if isLeafMapG m then [(joinPath pre k, GoVal.vMap m)]
       else FlattenMapG m (joinPath pre k)
     | other => [(joinPath pre k, other)]) ++ FlattenMapG rest pre
termination_by m _ => sizeOf m
decreasing_by
  · simp only [List.cons.sizeOf_spec, Prod.mk.sizeOf_spec, GoVal.vMap.sizeOf_spec]
    omega
  · simp only [List.cons.sizeOf_spec]
    omega

/-- Calls made to the backend vault client. -/
inductive BackendCall where
  | enableKV (root : String)
  | writeSecret (root sub : String) (leaf : List (String × GoVal))
  | listRec (root sub : String)

/-- Messages written to the writer; secret trees printed through the external
secret printer are kept symbolic. -/
inductive Msg where
  | text (s : String)
  | printed (secrets : List (String × GoVal))

/-- Model of `importOptions.writeSecrets`: flattens the parsed secrets and
issues one backend write per path, re-rooted under the requested sub-path
(non-map flattened values make the Go code `log.Fatalf`; they are carried as
empty leaves here since the C7 theorem never reaches them). -/
def writeSecretsModel (root sub : String) (secrets : List (String × GoVal)) :
    List BackendCall :=
  (FlattenMapG secrets "").map fun e =>
    let t := match GetRootElement secrets with
             | .ok r => r
             | .error _ => ""
    let newSub := goTrimPref e.1 t
    BackendCall.writeSecret root (if sub ≠ "" then pathJoin sub newSub else newSub)
      (match e.2 with
       | .vMap m => m
       | _ => [])

/-- Model of `importOptions.dryRun`.  The recursive backend read is recorded
as a `listRec` call whose flat response is the parameter `tmp`; `existing`
stands for `utils.UnflattenMap` applied to that response (that helper lives
outside this snapshot). -/
def dryRunModel (root sub : String) (secrets tmp existing : List (String × GoVal)) :
    List BackendCall × List Msg :=
  ([BackendCall.listRec root sub],
    (if tmp.isEmpty then [Msg.text "no secrets found - nothing to compare with"] else []) ++
    (if goSprint (GoVal.vMap secrets) = goSprint (GoVal.vMap existing) then
      [Msg.text "input matches secrets - no changes needed:", Msg.printed existing]
    else
      [Msg.text "deep merging provided secrets with existing secrets",
       Msg.text "preview:",
       Msg.printed (DeepMergeMaps secrets existing),
       Msg.text "apply changes by using the --force flag"]))

/-- Model of the run function of `NewImportCmd` from the dry-run decision on:
a dry run only reads and prints and returns; otherwise the engine is enabled,
every secret written, and unless silent the result is listed and printed. -/
def importRunModel (dryRunFlag silent : Bool) (root sub : String)
    (secretsWithNewPath parsedSecrets tmp existing postList : List (String × GoVal)) :
    List BackendCall × List Msg :=
  if dryRunFlag then
    dryRunModel root sub secretsWithNewPath tmp existing
  else
    (BackendCall.enableKV root :: writeSecretsModel root sub parsedSecrets ++
       (if silent then [] else [BackendCall.listRec root sub]),
     if silent then [] else [Msg.printed postList])

/-- C7: in a dry run whose provided tree equals the existing tree exactly,
the command reports "no changes" and performs no backend write: the only
backend call of the run is the recursive read. -/
theorem dryRun_no_changes (root sub : String)
    (secrets existing tmp postList parsed : List (String × GoVal))
    (heq : secrets = existing) :
    (importRunModel true false root sub secrets parsed tmp existing postList).1 =
      [BackendCall.listRec root sub] ∧
    Msg.text "input matches secrets - no changes needed:" ∈
      (importRunModel true false root sub secrets parsed tmp existing postList).2 ∧
    ∀ c ∈ (importRunModel true false root sub secrets parsed tmp existing postList).1,
      (∀ r, c ≠ BackendCall.enableKV r) ∧
      (∀ r s lf, c ≠ BackendCall.writeSecret r s lf) := by
  subst heq
  refine ⟨rfl, ?_, ?_⟩
  · simp [importRunModel, dryRunModel]
  · intro c hc
    simp only [importRunModel, dryRunModel, if_pos, List.mem_singleton] at hc
    subst hc
    exact ⟨fun r h => BackendCall.noConfusion h,
      fun r s lf h => BackendCall.noConfusion h⟩

/-- Witness for `dryRun_no_changes` at a concrete tree. -/
theorem dryRun_no_changes_witness :
    (importRunModel true false "secret" "app"
        [("db", GoVal.vMap [("user", GoVal.vStr "alice")])] []
        [("secret/app/db", GoVal.vMap [("user", GoVal.vStr "alice")])]
        [("db", GoVal.vMap [("user", GoVal.vStr "alice")])] []).1 =
      [BackendCall.listRec "secret" "app"] ∧
    Msg.text "input matches secrets - no changes needed:" ∈
      (importRunModel true false "secret" "app"
        [("db", GoVal.vMap [("user", GoVal.vStr "alice")])] []
        [("secret/app/db", GoVal.vMap [("user", GoVal.vStr "alice")])]
        [("db", GoVal.vMap [("user", GoVal.vStr "alice")])] []).2 ∧
    ∀ c ∈ (importRunModel true false "secret" "app"
        [("db", GoVal.vMap [("user", GoVal.vStr "alice")])] []
        [("secret/app/db", GoVal.vMap [("user", GoVal.vStr "alice")])]
        [("db", GoVal.vMap [("user", GoVal.vStr "alice")])] []).1,
      (∀ r, c ≠ BackendCall.enableKV r) ∧
      (∀ r s lf, c ≠ BackendCall.writeSecret r s lf) :=
  dryRun_no_changes "secret" "app" _ _ _ _ _ rfl

/-! ## C4: sorted-output determinism -/

/-- Values that represent the same Go map contents down to the leaf level:
equal values, or maps whose entry lists are permutations of each other. -/
def ValRel (v1 v2 : GoVal) : Prop :=
  v1 = v2 ∨ ∃ i1 i2, v1 = GoVal.vMap i1 ∧ v2 = GoVal.vMap i2 ∧ i1.Perm i2

/-- Entries with the same key and `ValRel`-related values. -/
def EntryRel (a b : String × GoVal) : Prop := a.1 = b.1 ∧ ValRel a.2 b.2

/-- Two entry lists represent the same Go map: equal up to reordering of the
top-level entries and of each leaf map's entries (Go map iteration order is
arbitrary at every level). -/
def MapRep (m1 m2 : List (String × GoVal)) : Prop :=
  ∃ mid, List.Forall₂ EntryRel m1 mid ∧ mid.Perm m2

/-- Key distinctness of one value level. -/
def ValNodup : GoVal → Prop
  | .vMap m => (m.map Prod.fst).Nodup
  | _ => True

theorem sortStrings_eq_of_perm {l1 l2 : List String} (h : l1.Perm l2) :
    l1.insertionSort (· ≤ ·) = l2.insertionSort (· ≤ ·) :=
  List.eq_of_perm_of_sorted
    (((List.perm_insertionSort _ l1).trans h).trans (List.perm_insertionSort _ l2).symm)
    (List.sorted_insertionSort _ l1) (List.sorted_insertionSort _ l2)

instance : IsTotal (String × GoVal) fun a b => a.1 ≤ b.1 :=
  ⟨fun a b => le_total a.1 b.1⟩

instance : IsTrans (String × GoVal) fun a b => a.1 ≤ b.1 :=
  ⟨fun _ _ _ h1 h2 => le_trans h1 h2⟩

instance : IsAntisymm (String × GoVal) fun a b => a.1 < b.1 :=
  ⟨fun _ _ h1 h2 => absurd h1 (lt_asymm h2)⟩

theorem sortPairs_sorted_lt (l : List (String × GoVal)) (hnd : (l.map Prod.fst).Nodup) :
    (sortPairs l).Pairwise fun a b => a.1 < b.1 := by
  have hle : (sortPairs l).Pairwise fun a b => a.1 ≤ b.1 :=
    List.sorted_insertionSort _ l
  have hnds : ((sortPairs l).map Prod.fst).Nodup := by
    have hperm : ((sortPairs l).map Prod.fst).Perm (l.map Prod.fst) :=
      (List.perm_insertionSort _ l).map Prod.fst
    exact hperm.nodup_iff.mpr hnd
  have hne : (sortPairs l).Pairwise fun a b => a.1 ≠ b.1 :=
    List.pairwise_map.mp hnds
  exact (hle.and hne).imp fun h => lt_of_le_of_ne h.1 h.2

theorem sortPairs_eq_of_perm {l1 l2 : List (String × GoVal)} (h : l1.Perm l2)
    (hnd : (l1.map Prod.fst).Nodup) : sortPairs l1 = sortPairs l2 := by
  have hnd2 : (l2.map Prod.fst).Nodup := ((h.map Prod.fst).nodup_iff).mp hnd
  refine List.eq_of_perm_of_sorted (r := fun a b => a.1 < b.1) ?_ ?_ ?_
  · exact ((List.perm_insertionSort _ l1).trans h).trans
      (List.perm_insertionSort _ l2).symm
  · exact sortPairs_sorted_lt l1 hnd
  · exact sortPairs_sorted_lt l2 hnd2

theorem canonEntries_eq_map (l : List (String × GoVal)) :
    canonVal.canonEntries l = l.map fun e => (e.1, canonVal e.2) := by
  induction l with
  | nil => simp [canonVal.canonEntries]
  | cons e rest ih =>
    obtain ⟨k, v⟩ := e
    simp [canonVal.canonEntries, ih]

theorem canonVal_rel {v1 v2 : GoVal} (h : ValRel v1 v2) (hnd : ValNodup v1) :
    canonVal v1 = canonVal v2 := by
  rcases h with rfl | ⟨i1, i2, rfl, rfl, hperm⟩
  · rfl
  · simp only [canonVal]
    congr 1
    rw [canonEntries_eq_map, canonEntries_eq_map]
    apply sortPairs_eq_of_perm (hperm.map _)
    have hmm : ((i1.map fun e => (e.1, canonVal e.2)).map Prod.fst) = i1.map Prod.fst := by
      rw [List.map_map]
      rfl
    rw [hmm]
    exact hnd

theorem forall2_keys {l1 l2 : List (String × GoVal)}
    (h : List.Forall₂ EntryRel l1 l2) : l1.map Prod.fst = l2.map Prod.fst := by
  induction h with
  | nil => rfl
  | cons h1 h2 ih => simp [h1.1, ih]

theorem forall2_map_canon {l1 l2 : List (String × GoVal)}
    (h : List.Forall₂ EntryRel l1 l2) :
    (∀ p ∈ l1, ValNodup p.2) →
    (l1.map fun e => (e.1, canonVal e.2)) = l2.map fun e => (e.1, canonVal e.2) := by
  induction h with
  | nil => intro _; rfl
  | cons h1 h2 ih =>
    intro hv
    simp only [List.map_cons]
    rw [ih fun p hp => hv p (List.mem_cons_of_mem _ hp)]
    have h0 := hv _ (List.mem_cons_self _ _)
    congr 1
    exact Prod.ext h1.1 (canonVal_rel h1.2 h0)

theorem canonTop_rel {m1 m2 : List (String × GoVal)} (hrel : MapRep m1 m2)
    (hnd : (m1.map Prod.fst).Nodup) (hv : ∀ p ∈ m1, ValNodup p.2) :
    canonVal (.vMap m1) = canonVal (.vMap m2) := by
  obtain ⟨mid, hf, hperm⟩ := hrel
  simp only [canonVal]
  congr 1
  rw [canonEntries_eq_map, canonEntries_eq_map, forall2_map_canon hf hv]
  apply sortPairs_eq_of_perm (hperm.map _)
  have hmm : ((mid.map fun e => (e.1, canonVal e.2)).map Prod.fst) = mid.map Prod.fst := by
    rw [List.map_map]
    rfl
  rw [hmm, ← forall2_keys hf]
  exact hnd

theorem lookup_perm_nodup {l1 l2 : List (String × GoVal)} (h : l1.Perm l2) :
    (l1.map Prod.fst).Nodup → ∀ k : String, l1.lookup k = l2.lookup k := by
  induction h with
  | nil => intro _ k; rfl
  | cons x h ih =>
    intro hnd k
    obtain ⟨k0, v0⟩ := x
    rw [List.map_cons, List.nodup_cons] at hnd
    by_cases hb : k == k0
    · simp [List.lookup, hb]
    · simp [List.lookup, hb, ih hnd.2 k]
  | swap x y l =>
    intro hnd k
    obtain ⟨ka, va⟩ := x
    obtain ⟨kb, vb⟩ := y
    have hne : kb ≠ ka := by
      simp only [List.map_cons, List.nodup_cons, List.mem_cons] at hnd
      exact fun hh => hnd.1 (Or.inl hh)
    by_cases hb1 : k == kb <;> by_cases hb2 : k == ka
    · exact absurd ((eq_of_beq hb1).symm.trans (eq_of_beq hb2)) hne
    · simp [List.lookup, hb1, hb2]
    · simp [List.lookup, hb1, hb2]
    · simp [List.lookup, hb1, hb2]
  | trans h1 h2 ih1 ih2 =>
    intro hnd k
    have hnd2 := ((h1.map Prod.fst).nodup_iff).mp hnd
    exact (ih1 hnd k).trans (ih2 hnd2 k)

theorem lookup_forall2 {l1 l2 : List (String × GoVal)}
    (h : List.Forall₂ EntryRel l1 l2) (k : String) :
    (l1.lookup k = none ∧ l2.lookup k = none) ∨
      ∃ v1 v2, l1.lookup k = some v1 ∧ l2.lookup k = some v2 ∧ ValRel v1 v2 := by
  induction h with
  | nil => exact Or.inl ⟨rfl, rfl⟩
  | @cons a b l1' l2' h1 h2 ih =>
    obtain ⟨ka, va⟩ := a
    obtain ⟨kb, vb⟩ := b
    obtain ⟨hk, hv⟩ := h1
    simp only at hk
    subst hk
    by_cases hb : k == ka
    · exact Or.inr ⟨va, vb, by simp [List.lookup, hb], by simp [List.lookup, hb], hv⟩
    · rcases ih with ⟨hn1, hn2⟩ | ⟨v1, v2, hs1, hs2, hrel⟩
      · exact Or.inl ⟨by simp [List.lookup, hb, hn1], by simp [List.lookup, hb, hn2]⟩
      · exact Or.inr ⟨v1, v2, by simp [List.lookup, hb, hs1], by simp [List.lookup, hb, hs2],
          hrel⟩

theorem printSecretsStr_rel (ok op : Bool) {v1 v2 : GoVal} (h : ValRel v1 v2)
    (hnd : ValNodup v1) : printSecretsStr ok op v1 = printSecretsStr ok op v2 := by
  rcases h with rfl | ⟨i1, i2, rfl, rfl, hperm⟩
  · rfl
  · simp only [printSecretsStr]
    have hkeys : SortMapKeys i2 = SortMapKeys i1 := by
      unfold SortMapKeys
      exact sortStrings_eq_of_perm (hperm.map Prod.fst).symm
    rw [hkeys]
    congr 1
    apply List.map_congr_left
    intro k hk
    have hlk : i1.lookup k = i2.lookup k := lookup_perm_nodup hperm hnd k
    simp only [lookupD, hlk]

theorem outBase_rel {p1 p2 : Printer} (hrel : MapRep p1.secrets p2.secrets)
    (hnd : (p1.secrets.map Prod.fst).Nodup) (hv : ∀ q ∈ p1.secrets, ValNodup q.2)
    (hok : p1.onlyKeys = p2.onlyKeys) (hop : p1.onlyPaths = p2.onlyPaths) :
    outBase p1 = outBase p2 := by
  obtain ⟨mid, hf, hperm⟩ := hrel
  unfold outBase
  have hndmid : (mid.map Prod.fst).Nodup := by
    rw [← forall2_keys hf]
    exact hnd
  have hkeys : SortMapKeys p2.secrets = SortMapKeys p1.secrets := by
    unfold SortMapKeys
    rw [forall2_keys hf]
    exact sortStrings_eq_of_perm (hperm.map Prod.fst).symm
  rw [hkeys, ← hok, ← hop]
  congr 1
  apply List.map_congr_left
  intro k hk
  have h2 : mid.lookup k = p2.secrets.lookup k := lookup_perm_nodup hperm hndmid k
  rcases lookup_forall2 hf k with ⟨hn1, hn2⟩ | ⟨v1, v2, hs1, hs2, hrel12⟩
  · have hn2' : p2.secrets.lookup k = none := h2.symm.trans hn2
    simp [lookupD, hn1, hn2']
  · have hs2' : p2.secrets.lookup k = some v2 := h2.symm.trans hs2
    have hv1 : ValNodup v1 := hv _ (mem_of_lookup_eq_some hs1)
    have hd1 : lookupD k p1.secrets = v1 := by simp [lookupD, hs1]
    have hd2 : lookupD k p2.secrets = v2 := by simp [lookupD, hs2']
    rw [hd1, hd2, printSecretsStr_rel p1.onlyKeys p1.onlyPaths hrel12 hv1]

/-- C4 (amended): rendering is deterministic in the native, json and yaml
formats — two printers over the same map contents (any top-level and any
leaf-map entry order; the shape the printer receives) render byte-identical
output, because top-level and nested keys are sorted before emission.  The
shell-export format is excluded: its inner loop follows map iteration order
(see the counterexample). -/
theorem render_deterministic (p1 p2 : Printer)
    (hrel : MapRep p1.secrets p2.secrets)
    (hnd : (p1.secrets.map Prod.fst).Nodup)
    (hv : ∀ q ∈ p1.secrets, ValNodup q.2)
    (hfmt : p1.format = p2.format) (hexp : p1.format ≠ .exportFmt)
    (hok : p1.onlyKeys = p2.onlyKeys) (hop : p1.onlyPaths = p2.onlyPaths) :
    goOut p1 = goOut p2 := by
  cases hf : p1.format with
  | exportFmt => exact absurd hf hexp
  | base =>
    have hf2 : p2.format = .base := hfmt.symm.trans hf
    simp only [goOut, hf, hf2]
    exact congrArg some (outBase_rel hrel hnd hv hok hop)
  | yaml =>
    have hf2 : p2.format = .yaml := hfmt.symm.trans hf
    simp only [goOut, hf, hf2, ToYAMLModel]
    exact congrArg (fun v => some (yamlRaw v)) (canonTop_rel hrel hnd hv)
  | json =>
    have hf2 : p2.format = .json := hfmt.symm.trans hf
    simp only [goOut, hf, hf2, ToJSONModel]
    exact congrArg (fun v => some (jsonRaw v)) (canonTop_rel hrel hnd hv)

/-- Witness for `render_deterministic`: two entry orders of the same map in
the native format render identically. -/
theorem render_deterministic_witness :
    goOut ⟨[("b", GoVal.vMap [("y", GoVal.vStr "2")]), ("a", GoVal.vMap [("x", GoVal.vStr "1")])],
      .base, false, false, true, 12⟩ =
    goOut ⟨[("a", GoVal.vMap [("x", GoVal.vStr "1")]), ("b", GoVal.vMap [("y", GoVal.vStr "2")])],
      .base, false, false, true, 12⟩ := by
  refine render_deterministic _ _ ⟨_, ?_, List.Perm.swap _ _ _⟩ (by simp) ?_ rfl
    (by intro hh; cases hh) rfl rfl
  · exact List.Forall₂.cons ⟨rfl, Or.inl rfl⟩
      (List.Forall₂.cons ⟨rfl, Or.inl rfl⟩ List.Forall₂.nil)
  · intro q hq
    rcases List.mem_cons.mp hq with rfl | hq'
    · show (List.map Prod.fst [("y", GoVal.vStr "2")]).Nodup
      simp
    · rcases List.mem_cons.mp hq' with rfl | hq''
      · show (List.map Prod.fst [("x", GoVal.vStr "1")]).Nodup
        simp
      · cases hq''

/-- C4 (counterexample): the shell-export branch of `Out` iterates each leaf
map in map iteration order without sorting, so two representations of the
same tree render different bytes — rendering is not deterministic in every
format. -/
theorem out_export_not_deterministic :
    MapRep [("a", GoVal.vMap [("j", GoVal.vStr "2"), ("k", GoVal.vStr "1")])]
        [("a", GoVal.vMap [("k", GoVal.vStr "1"), ("j", GoVal.vStr "2")])] ∧
    goOut ⟨[("a", GoVal.vMap [("j", GoVal.vStr "2"), ("k", GoVal.vStr "1")])],
        .exportFmt, false, false, true, 12⟩ ≠
      goOut ⟨[("a", GoVal.vMap [("k", GoVal.vStr "1"), ("j", GoVal.vStr "2")])],
        .exportFmt, false, false, true, 12⟩ := by
  constructor
  · exact ⟨[("a", GoVal.vMap [("k", GoVal.vStr "1"), ("j", GoVal.vStr "2")])],
      List.Forall₂.cons ⟨rfl, Or.inr ⟨_, _, rfl, rfl, List.Perm.swap _ _ _⟩⟩ List.Forall₂.nil,
      List.Perm.refl _⟩
  · decide

/-! ## C1: the PathCodec round trip -/

/-- A leaf: the key/value pairs stored at one path. -/
abbrev Leaf := List (String × String)

/-- The spec's tagged secret tree (§3): a node is either a leaf map of
scalars or a subtree map. -/
inductive STree where
  | leaf (kv : Leaf)
  | node (children : List (String × STree))

/-- A flat, path-keyed secret set. -/
abbrev FlatSecretSet := List (String × Leaf)

/-- Folding `joinPath` over a segment list. -/
def joinPathSegs (p : String) (segs : List String) : String := segs.foldl joinPath p

/-- Strips the absolute prefix (with its trailing delimiter) from a path; an
empty prefix strips nothing. -/
def stripAbs (p q : String) : String := if p = "" then q else goTrimPref q (p ++ "/")

/-- Strips the engine-path wrapping layer when the engine path is
non-empty. -/
def stripEngine (e r : String) : String := if e = "" then r else goTrimPref r (e ++ "/")

/-- The delimiter-separated segments of a flat key after prefix and engine
stripping. -/
def segsOf (p e q : String) : List String :=
  (splitSlash (stripEngine e (stripAbs p q)).data).map String.mk

/-- The engine-path wrapping adjustment on one flat key: identity on
well-formed keys when the engine path is empty, otherwise it removes the
engine layer from the key. -/
def unwrapEngine (p e q : String) : String := joinPath p (stripEngine e (stripAbs p q))

/-- Well-formedness of one flat key: the key lives under the prefix, and with
an empty prefix the stripped remainder does not begin with the delimiter
(spec §3: paths never begin with the delimiter). -/
def KeyWF (p e q : String) : Prop :=
  (p ≠ "" → ∃ r, q = p ++ "/" ++ r) ∧
  (p = "" → (stripEngine e (stripAbs p q)).data.head? ≠ some '/')

theorem joinPathSegs_flatMap (ss : List (List Char)) :
    ∀ pre : String, pre ≠ "" →
      joinPathSegs pre (ss.map String.mk) = pre ++ ⟨ss.flatMap fun s => '/' :: s⟩ := by
  induction ss with
  | nil =>
    intro pre _
    apply String.ext
    simp [joinPathSegs, String.data_append]
  | cons s ss ih =>
    intro pre hpre
    have hstep : joinPathSegs pre (String.mk s :: ss.map String.mk) =
        joinPathSegs (joinPath pre (String.mk s)) (ss.map String.mk) := rfl
    rw [List.map_cons, hstep]
    have hjp : joinPath pre (String.mk s) = pre ++ "/" ++ ⟨s⟩ := by
      unfold joinPath
      rw [if_neg hpre]
    have hne : pre ++ "/" ++ (⟨s⟩ : String) ≠ "" := by
      intro hcon
      have := congrArg String.data hcon
      simp [String.data_append] at this
    rw [hjp, ih _ hne]
    apply String.ext
    simp [String.data_append, List.flatMap_cons]

theorem joinPathSegs_segs_ne (l : List Char) (pre : String) (hpre : pre ≠ "") :
    joinPathSegs pre ((splitSlash l).map String.mk) = pre ++ "/" ++ ⟨l⟩ := by
  rw [joinPathSegs_flatMap _ pre hpre, splitSlash_flatMap]
  apply String.ext
  simp [String.data_append]

theorem joinPathSegs_segs_empty_pre (l : List Char) (hl : l.head? ≠ some '/') :
    joinPathSegs "" ((splitSlash l).map String.mk) = ⟨l⟩ := by
  match l with
  | [] => rfl
  | c :: rest =>
    have hc : c ≠ '/' := by
      intro hcc
      exact hl (by rw [hcc]; rfl)
    have hjoin := splitSlash_flatMap rest
    cases hs : splitSlash rest with
    | nil => exact absurd hs (splitSlash_ne_nil rest)
    | cons s ss =>
      rw [hs] at hjoin
      simp only [List.flatMap_cons, List.cons_append] at hjoin
      injection hjoin with _ htail
      have hsplit : splitSlash (c :: rest) = (c :: s) :: ss := by
        simp only [splitSlash, if_neg hc, hs]
      rw [hsplit]
      have hstep : joinPathSegs "" (String.mk (c :: s) :: ss.map String.mk) =
          joinPathSegs (String.mk (c :: s)) (ss.map String.mk) := rfl
      rw [List.map_cons, hstep]
      have hne : (⟨c :: s⟩ : String) ≠ "" := by
        intro hcon
        have := congrArg String.data hcon
        simp at this
      rw [joinPathSegs_flatMap _ _ hne]
      apply String.ext
      simp only [String.data_append]
      show (c :: s) ++ ss.flatMap (fun x => '/' :: x) = c :: rest
      rw [List.cons_append, htail]

theorem joinPathSegs_segsOf (p e q : String) (h : KeyWF p e q) :
    joinPathSegs p (segsOf p e q) = unwrapEngine p e q := by
  unfold segsOf unwrapEngine
  by_cases hp : p = ""
  · subst hp
    rw [joinPathSegs_segs_empty_pre _ (h.2 rfl)]
    simp [joinPath]
  · rw [joinPathSegs_segs_ne _ p hp]
    simp [joinPath, hp]

theorem stripAbs_under (p r : String) (hp : p ≠ "") : stripAbs p (p ++ "/" ++ r) = r := by
  unfold stripAbs goTrimPref
  rw [if_neg hp]
  have hdata : (p ++ "/" ++ r).data = (p ++ "/").data ++ r.data := by
    simp [String.data_append]
  have hpref : ((p ++ "/").data).isPrefixOf (p ++ "/" ++ r).data = true := by
    rw [hdata]
    exact List.isPrefixOf_iff_prefix.mpr (List.prefix_append _ _)
  simp only [hpref, if_true]
  apply String.ext
  simp only [hdata, List.drop_left]

theorem unwrapEngine_id (p e q : String) (h : KeyWF p e q) (he : e = "") :
    unwrapEngine p e q = q := by
  subst he
  unfold unwrapEngine stripEngine
  rw [if_pos rfl]
  by_cases hp : p = ""
  · subst hp
    unfold stripAbs
    rw [if_pos rfl]
    simp [joinPath]
  · obtain ⟨r, rfl⟩ := h.1 hp
    rw [stripAbs_under p r hp]
    simp [joinPath, hp]

/-- Replaces the first child carrying the given key. -/
def replaceFirst : List (String × STree) → String → STree → List (String × STree)
  | [], _, _ => []
  | (k, t) :: cs, a, nt => if k = a then (a, nt) :: cs else (k, t) :: replaceFirst cs a nt

/-- Inserts a leaf at a segment path, creating intermediate nodes as needed;
a leaf standing in the way is overwritten (the malformed path/leaf collision
the spec flags as undefended). -/
def insertTree (t : STree) (segs : List String) (l : Leaf) : STree :=
  match segs with
  | [] => .leaf l
  | a :: rest =>
    let cs := match t with
              | .leaf _ => []
              | .node cs => cs
    match cs.lookup a with
    | some t' => .node (replaceFirst cs a (insertTree t' rest l))
    | none => .node (cs ++ [(a, insertTree (.node []) rest l)])

/-- Modelled from the spec: `utils.FlattenMap` on the tagged tree — descends
the tree and emits one entry per leaf, keyed by the joined path. -/
def Flatten : STree → String → FlatSecretSet
  | .leaf kv, pre => [(pre, kv)]
  | .node [], _ => []
  | .node ((k, t) :: rest), pre =>
    Flatten t (joinPath pre k) ++ Flatten (.node rest) pre
termination_by t _ => sizeOf t
decreasing_by
  · simp only [STree.node.sizeOf_spec, List.cons.sizeOf_spec, Prod.mk.sizeOf_spec]
    omega
  · simp only [STree.node.sizeOf_spec, List.cons.sizeOf_spec]
    omega

/-- The segment paths of all leaves of a tree. -/
def treePaths : STree → List (List String)
  | .leaf _ => [[]]
  | .node [] => []
  | .node ((k, t) :: rest) => (treePaths t).map (fun s => k :: s) ++ treePaths (.node rest)
termination_by t => sizeOf t
decreasing_by
  · simp only [STree.node.sizeOf_spec, List.cons.sizeOf_spec, Prod.mk.sizeOf_spec]
    omega
  · simp only [STree.node.sizeOf_spec, List.cons.sizeOf_spec]
    omega

/-- Modelled from the spec: `utils.UnflattenMap` — for each flat entry,
strips the absolute prefix (and, when non-empty, the engine path as an outer
wrapping layer) from the path, splits the remainder on the delimiter, and
inserts the leaf at that location, creating intermediate nodes as needed. -/
def Unflatten (p : String) (f : FlatSecretSet) (e : String) : STree :=
  f.foldr (fun entry t => insertTree t (segsOf p e entry.1) entry.2) (.node [])

/-- A segment path is free in a tree: it is prefix-incomparable with every
leaf path of the tree. -/
def FreePath (s : List String) (t : STree) : Prop :=
  ∀ s' ∈ treePaths t, ¬ s <+: s' ∧ ¬ s' <+: s

theorem Flatten_node_append (cs1 cs2 : List (String × STree)) (pre : String) :
    Flatten (.node (cs1 ++ cs2)) pre =
      Flatten (.node cs1) pre ++ Flatten (.node cs2) pre := by
  induction cs1 with
  | nil => simp [Flatten]
  | cons q rest ih =>
    obtain ⟨k, t⟩ := q
    simp only [List.cons_append, Flatten, ih, List.append_assoc]

theorem treePaths_node_append (cs1 cs2 : List (String × STree)) :
    treePaths (.node (cs1 ++ cs2)) =
      treePaths (.node cs1) ++ treePaths (.node cs2) := by
  induction cs1 with
  | nil => simp [treePaths]
  | cons q rest ih =>
    obtain ⟨k, t⟩ := q
    simp only [List.cons_append, treePaths, ih, List.append_assoc]

theorem Flatten_eq_nil (t : STree) (h : treePaths t = []) :
    ∀ pre : String, Flatten t pre = [] := by
  match t with
  | .leaf kv => simp [treePaths] at h
  | .node [] => intro pre; simp [Flatten]
  | .node ((k, t') :: rest) =>
    intro pre
    simp only [treePaths, List.append_eq_nil, List.map_eq_nil_iff] at h
    simp only [Flatten]
    rw [Flatten_eq_nil t' h.1 (joinPath pre k), Flatten_eq_nil (.node rest) h.2 pre]
    rfl
termination_by sizeOf t
decreasing_by
  · simp only [STree.node.sizeOf_spec, List.cons.sizeOf_spec, Prod.mk.sizeOf_spec]
    omega
  · simp only [STree.node.sizeOf_spec, List.cons.sizeOf_spec]
    omega

theorem lookup_some_decomp {cs : List (String × STree)} {a : String} {t' : STree}
    (h : cs.lookup a = some t') :
    ∃ cs1 cs2, cs = cs1 ++ (a, t') :: cs2 ∧ ∀ x ∈ cs1, x.1 ≠ a := by
  induction cs with
  | nil => simp at h
  | cons q rest ih =>
    obtain ⟨k0, t0⟩ := q
    by_cases hb : a == k0
    · have hak : a = k0 := eq_of_beq hb
      subst hak
      simp only [List.lookup, beq_self_eq_true, if_pos] at h
      cases h
      exact ⟨[], rest, rfl, by simp⟩
    · simp only [List.lookup, hb] at h
      obtain ⟨cs1, cs2, rfl, hne⟩ := ih h
      refine ⟨(k0, t0) :: cs1, cs2, rfl, ?_⟩
      intro x hx
      rcases List.mem_cons.mp hx with rfl | hx'
      · intro hh
        exact hb (beq_iff_eq.mpr hh.symm)
      · exact hne x hx'

theorem replaceFirst_decomp (cs1 cs2 : List (String × STree)) (a : String)
    (t' nt : STree) (hne : ∀ x ∈ cs1, x.1 ≠ a) :
    replaceFirst (cs1 ++ (a, t') :: cs2) a nt = cs1 ++ (a, nt) :: cs2 := by
  induction cs1 with
  | nil => simp [replaceFirst]
  | cons q rest ih =>
    obtain ⟨k0, t0⟩ := q
    have hk : k0 ≠ a := hne (k0, t0) (List.mem_cons_self _ _)
    simp only [List.cons_append, replaceFirst, if_neg hk]
    exact congrArg (fun w => (k0, t0) :: w)
      (ih fun x hx => hne x (List.mem_cons_of_mem _ hx))

theorem mem_treePaths_middle (cs1 cs2 : List (String × STree)) (a : String)
    (t' : STree) (s' : List String) (hs' : s' ∈ treePaths t') :
    a :: s' ∈ treePaths (.node (cs1 ++ (a, t') :: cs2)) := by
  rw [treePaths_node_append]
  apply List.mem_append_right
  simp only [treePaths]
  apply List.mem_append_left
  exact List.mem_map_of_mem _ hs'

theorem Flatten_insert_fresh (l : Leaf) :
    ∀ (s : List String) (pre : String),
      Flatten (insertTree (.node []) s l) pre = [(joinPathSegs pre s, l)] := by
  intro s
  induction s with
  | nil =>
    intro pre
    simp [insertTree, Flatten, joinPathSegs]
  | cons a rest ih =>
    intro pre
    have hi : insertTree (.node []) (a :: rest) l =
        .node [(a, insertTree (.node []) rest l)] := by
      simp [insertTree]
    rw [hi]
    simp only [Flatten]
    rw [ih (joinPath pre a)]
    simp [joinPathSegs]

theorem Flatten_insertTree (l : Leaf) :
    ∀ (s : List String) (t : STree) (pre : String), FreePath s t →
      (Flatten (insertTree t s l) pre).Perm
        ((joinPathSegs pre s, l) :: Flatten t pre) := by
  intro s
  induction s with
  | nil =>
    intro t pre hfree
    have ht : treePaths t = [] := by
      rw [List.eq_nil_iff_forall_not_mem]
      intro s' hs'
      exact (hfree s' hs').1 List.nil_prefix
    rw [Flatten_eq_nil t ht pre]
    simp [insertTree, Flatten, joinPathSegs]
  | cons a rest ih =>
    intro t pre hfree
    cases t with
    | leaf kv =>
      exact absurd List.nil_prefix (hfree [] (by simp [treePaths])).2
    | node cs =>
      cases hlk : cs.lookup a with
      | none =>
        have hi : insertTree (.node cs) (a :: rest) l =
            .node (cs ++ [(a, insertTree (.node []) rest l)]) := by
          simp [insertTree, hlk]
        rw [hi, Flatten_node_append]
        have hone : Flatten (.node [(a, insertTree (.node []) rest l)]) pre =
            [(joinPathSegs pre (a :: rest), l)] := by
          simp only [Flatten]
          rw [Flatten_insert_fresh l rest (joinPath pre a)]
          simp [joinPathSegs]
        rw [hone]
        exact List.perm_append_singleton _ _
      | some t' =>
        obtain ⟨cs1, cs2, rfl, hne⟩ := lookup_some_decomp hlk
        have hi : insertTree (.node (cs1 ++ (a, t') :: cs2)) (a :: rest) l =
            .node (cs1 ++ (a, insertTree t' rest l) :: cs2) := by
          simp only [insertTree, hlk]
          rw [replaceFirst_decomp cs1 cs2 a t' _ hne]
        rw [hi, Flatten_node_append, Flatten_node_append]
        simp only [Flatten]
        have hfree' : FreePath rest t' := by
          intro s' hs'
          have hmem := mem_treePaths_middle cs1 cs2 a t' s' hs'
          have hx := hfree (a :: s') hmem
          constructor
          · intro hp
            exact hx.1 (List.cons_prefix_cons.mpr ⟨rfl, hp⟩)
          · intro hp
            exact hx.2 (List.cons_prefix_cons.mpr ⟨rfl, hp⟩)
        have hB := ih t' (joinPath pre a) hfree'
        refine ((hB.append_right _).append_left _).trans ?_
        rw [List.cons_append]
        exact List.perm_middle

theorem treePaths_insertTree (l : Leaf) :
    ∀ (s : List String) (t : STree) (s' : List String),
      s' ∈ treePaths (insertTree t s l) → s' = s ∨ s' ∈ treePaths t := by
  intro s
  induction s with
  | nil =>
    intro t s' hs'
    simp only [insertTree, treePaths, List.mem_singleton] at hs'
    exact Or.inl hs'
  | cons a rest ih =>
    intro t s' hs'
    cases t with
    | leaf kv =>
      have hi : insertTree (.leaf kv) (a :: rest) l =
          .node [(a, insertTree (.node []) rest l)] := by
        simp [insertTree]
      rw [hi] at hs'
      simp only [treePaths, List.append_nil] at hs'
      obtain ⟨s'', hs'', rfl⟩ := List.mem_map.mp hs'
      rcases ih (.node []) s'' hs'' with rfl | hmem
      · exact Or.inl rfl
      · simp [treePaths] at hmem
    | node cs =>
      cases hlk : cs.lookup a with
      | none =>
        have hi : insertTree (.node cs) (a :: rest) l =
            .node (cs ++ [(a, insertTree (.node []) rest l)]) := by
          simp [insertTree, hlk]
        rw [hi, treePaths_node_append] at hs'
        rcases List.mem_append.mp hs' with h1 | h2
        · exact Or.inr h1
        · simp only [treePaths, List.append_nil] at h2
          obtain ⟨s'', hs'', rfl⟩ := List.mem_map.mp h2
          rcases ih (.node []) s'' hs'' with rfl | hmem
          · exact Or.inl rfl
          · simp [treePaths] at hmem
      | some t' =>
        obtain ⟨cs1, cs2, rfl, hne⟩ := lookup_some_decomp hlk
        have hi : insertTree (.node (cs1 ++ (a, t') :: cs2)) (a :: rest) l =
            .node (cs1 ++ (a, insertTree t' rest l) :: cs2) := by
          simp only [insertTree, hlk]
          rw [replaceFirst_decomp cs1 cs2 a t' _ hne]
        rw [hi, treePaths_node_append] at hs'
        rcases List.mem_append.mp hs' with h1 | h2
        · refine Or.inr ?_
          rw [treePaths_node_append]
          exact List.mem_append_left _ h1
        · simp only [treePaths] at h2
          rcases List.mem_append.mp h2 with h3 | h4
          · obtain ⟨s'', hs'', rfl⟩ := List.mem_map.mp h3
            rcases ih t' s'' hs'' with rfl | hmem
            · exact Or.inl rfl
            · exact Or.inr (mem_treePaths_middle cs1 cs2 a t' s'' hmem)
          · refine Or.inr ?_
            rw [treePaths_node_append]
            apply List.mem_append_right
            simp only [treePaths]
            exact List.mem_append_right _ h4

theorem treePaths_Unflatten (p e : String) :
    ∀ (f : FlatSecretSet) (s' : List String),
      s' ∈ treePaths (Unflatten p f e) → ∃ entry ∈ f, s' = segsOf p e entry.1 := by
  intro f
  induction f with
  | nil =>
    intro s' hs'
    simp [Unflatten, treePaths] at hs'
  | cons entry f' ih =>
    intro s' hs'
    have hu : Unflatten p (entry :: f') e =
        insertTree (Unflatten p f' e) (segsOf p e entry.1) entry.2 := rfl
    rw [hu] at hs'
    rcases treePaths_insertTree entry.2 (segsOf p e entry.1) _ s' hs' with rfl | hmem
    · exact ⟨entry, List.mem_cons_self _ _, rfl⟩
    · obtain ⟨entry', hm, hq⟩ := ih s' hmem
      exact ⟨entry', List.mem_cons_of_mem _ hm, hq⟩

theorem Flatten_Unflatten_aux (p e : String) :
    ∀ f : FlatSecretSet, (∀ entry ∈ f, KeyWF p e entry.1) →
      f.Pairwise (fun a b =>
        ¬ segsOf p e a.1 <+: segsOf p e b.1 ∧ ¬ segsOf p e b.1 <+: segsOf p e a.1) →
      (Flatten (Unflatten p f e) p).Perm
        (f.map fun entry => (unwrapEngine p e entry.1, entry.2)) := by
  intro f
  induction f with
  | nil =>
    intro _ _
    simp [Unflatten, Flatten]
  | cons entry f' ih =>
    intro hwf hpf
    have hwf' : ∀ x ∈ f', KeyWF p e x.1 :=
      fun x hx => hwf x (List.mem_cons_of_mem _ hx)
    have hpc := List.pairwise_cons.mp hpf
    have hfree : FreePath (segsOf p e entry.1) (Unflatten p f' e) := by
      intro s' hs'
      obtain ⟨entry', hm', rfl⟩ := treePaths_Unflatten p e f' s' hs'
      exact ⟨(hpc.1 entry' hm').1, (hpc.1 entry' hm').2⟩
    have hins := Flatten_insertTree entry.2 (segsOf p e entry.1) (Unflatten p f' e) p hfree
    have hu : Unflatten p (entry :: f') e =
        insertTree (Unflatten p f' e) (segsOf p e entry.1) entry.2 := rfl
    rw [hu]
    refine hins.trans ?_
    rw [joinPathSegs_segsOf p e entry.1 (hwf entry (List.mem_cons_self _ _))]
    simp only [List.map_cons]
    exact (ih hwf' hpc.2).cons _

/-- C1: the PathCodec round trip.  For a well-formed flat secret set (keys
under the prefix, no leading-delimiter remainder, pairwise prefix-free
segment paths), `Flatten (Unflatten p f e) p` equals `f` with each key taken
through the engine-path wrapping adjustment (`unwrapEngine`), and equals `f`
itself when the engine path is empty — map equality stated as a permutation
of entry lists, since flat sets have no defined iteration order. -/
theorem Flatten_Unflatten_roundtrip (p e : String) (f : FlatSecretSet)
    (hwf : ∀ entry ∈ f, KeyWF p e entry.1)
    (hpf : f.Pairwise fun a b =>
      ¬ segsOf p e a.1 <+: segsOf p e b.1 ∧ ¬ segsOf p e b.1 <+: segsOf p e a.1) :
    (Flatten (Unflatten p f e) p).Perm
        (f.map fun entry => (unwrapEngine p e entry.1, entry.2)) ∧
    (e = "" → (Flatten (Unflatten p f e) p).Perm f) := by
  have hmain := Flatten_Unflatten_aux p e f hwf hpf
  refine ⟨hmain, fun he => ?_⟩
  refine hmain.trans ?_
  have hmap : (f.map fun entry => (unwrapEngine p e entry.1, entry.2)) = f := by
    have hcongr : (f.map fun entry => (unwrapEngine p e entry.1, entry.2)) =
        f.map (fun entry => entry) := by
      apply List.map_congr_left
      intro x hx
      exact Prod.ext (unwrapEngine_id p e x.1 (hwf x hx) he) rfl
    rw [hcongr, List.map_id']
  rw [hmap]

/-- Witness for `Flatten_Unflatten_roundtrip` at the spec's end-to-end flat
set. -/
theorem Flatten_Unflatten_roundtrip_witness :
    (Flatten (Unflatten "secret"
        [("secret/app/db", [("user", "alice"), ("pass", "s3cret")])] "") "secret").Perm
      ((([("secret/app/db", [("user", "alice"), ("pass", "s3cret")])] : FlatSecretSet).map
        fun entry => (unwrapEngine "secret" "" entry.1, entry.2))) ∧
    ("" = "" → (Flatten (Unflatten "secret"
        [("secret/app/db", [("user", "alice"), ("pass", "s3cret")])] "") "secret").Perm
      [("secret/app/db", [("user", "alice"), ("pass", "s3cret")])]) := by
  refine Flatten_Unflatten_roundtrip "secret" ""
    [("secret/app/db", [("user", "alice"), ("pass", "s3cret")])] ?_ ?_
  · intro entry he
    rw [List.mem_singleton] at he
    subst he
    exact ⟨fun _ => ⟨"app/db", rfl⟩, fun hc => absurd hc (by decide)⟩
  · simp

end Vkv
